import Mathlib

/-!
Shallow embedding of the certainty-factor inference engine of this
repository (`week3/test_project_flask/app.py`; the `week4` copy is a
near-duplicate of the same functions).  Python dictionaries are modelled
as insertion-ordered association lists with unique keys, Python floats as
rationals, and the generator `ancestors` as a fuel-indexed recursion whose
fuel bound we prove sufficient.
-/

namespace ExpertSystem

abbrev Concept := String

/-- A value stored in the request's `weights` dictionary: either a value that
Python's `float(x)` converts to a number (numbers and numeric strings), or a
value on which `float(x)` raises. -/
inductive PyVal where
  | num (q : ℚ)
  | nonNum
deriving DecidableEq, Repr

/-- Python `dict` lookup `m.get(k)` on an association list. -/
def lookup? {α : Type} : List (Concept × α) → Concept → Option α
  | [], _ => none
  | (k, v) :: rest, j => if k = j then some v else lookup? rest j

/-- Python `m.get(k, d)`. -/
def getD {α : Type} (m : List (Concept × α)) (k : Concept) (d : α) : α :=
  (lookup? m k).getD d

/-- Python `dict` assignment `m[k] = v`: update in place when the key exists
(keeping its position), append otherwise. -/
def setKey {α : Type} : List (Concept × α) → Concept → α → List (Concept × α)
  | [], k, v => [(k, v)]
  | (k', v') :: rest, k, v =>
    if k' = k then (k, v) :: rest else (k', v') :: setKey rest k v

/-- `clamp01` from `app.py`: convert to float and clamp to `[0, 1]`; any
conversion failure is swallowed and yields `0.0`. -/
def clamp01 : PyVal → ℚ
  | .num q => max 0 (min 1 q)
  | .nonNum => 0

/-- A record of `facts.json` (only `id` and `value` feed the engine). -/
structure Fact where
  id : Concept
  description : String
  value : Bool
  tags : List String
deriving DecidableEq, Repr

/-- A record of `rules.json`. -/
structure Rule where
  id : String
  conditions : List Concept
  conclusion : Concept
  certainty : Option ℚ
  explain : Option String
deriving DecidableEq, Repr

/-- The expanded-confidence dictionary (concept → confidence). -/
abbrev ConfMap := List (Concept × ℚ)

/-- One step of the parent walk: `x` steps to `y` when `PARENT[x] = y`. -/
def parentStep (parent : List (Concept × Concept)) (x y : Concept) : Prop :=
  lookup? parent x = some y

/-- The `while` loop of `ancestors`, indexed by fuel.  Each iteration yields
`PARENT[cur]` unless it is absent or already in `seen`. -/
def ancestorsAux (parent : List (Concept × Concept)) :
    Nat → Concept → List Concept → List Concept
  | 0, _, _ => []
  | fuel + 1, cur, seen =>
    match lookup? parent cur with
    | none => []
    | some p => if p ∈ seen then [] else p :: ancestorsAux parent fuel p (p :: seen)

/-- `ancestors` from `app.py`: the guarded walk up the parent chain.  The walk
visits at most one new parent per step, so `parent.length + 1` fuel is enough
(proved below). -/
def ancestors (parent : List (Concept × Concept)) (concept : Concept) : List Concept :=
  ancestorsAux parent (parent.length + 1) concept []

/-- `expand_observation` from `app.py`: propagate each observation's confidence
to all its ancestors, taking maxima; the empty taxonomy is an identity fast
path. -/
def expand_observation (parent : List (Concept × Concept)) (obs_conf : ConfMap) : ConfMap :=
  if parent = [] then obs_conf
  else
    obs_conf.foldl
      (fun expanded fc =>
        (ancestors parent fc.1).foldl
          (fun e anc => setKey e anc (max (getD e anc 0) fc.2)) expanded)
      obs_conf

/-- The condition-scanning loop of `evaluate_rule`: clamp each condition's
confidence (absent ⇒ `0.0`) and short-circuit to `none` as soon as one is
`≤ 0`. -/
def condScores (obs_conf : ConfMap) : List Concept → Option (List ℚ)
  | [] => some []
  | cid :: rest =>
    let c := clamp01 (.num (getD obs_conf cid 0))
    if c ≤ 0 then none else (condScores obs_conf rest).map (c :: ·)

/-- `evaluate_rule` from `app.py`: returns `(fires, score)`. -/
def evaluate_rule (rule : Rule) (obs_conf : ConfMap) : Bool × ℚ :=
  match condScores obs_conf rule.conditions with
  | none => (false, 0)
  | some [] => (false, 0)
  | some (s :: ss) =>
    (true, ss.foldl min s * clamp01 (.num (rule.certainty.getD 1)))

/-- `FACT_VALUE` from `app.py`: dictionary comprehension over the fact list
(later records with the same id overwrite earlier ones). -/
def FACT_VALUE (facts : List Fact) : List (Concept × Bool) :=
  facts.foldl (fun d f => setKey d f.id f.value) []

/-- The ids whose baseline fact value is true (`[fid for fid, val in
FACT_VALUE.items() if val is True]`). -/
def trueFactIds (facts : List Fact) : List Concept :=
  (FACT_VALUE facts).filterMap (fun p => if p.2 then some p.1 else none)

/-- The observed-id set after the optional baseline union (`observed_ids` is a
Python set; we model it as a deduplicated list, membership being all that
matters downstream). -/
def observedUnion (observedIds : List Concept) (facts : List Fact)
    (useTrueFacts : Bool) : List Concept :=
  if useTrueFacts then (observedIds ++ trueFactIds facts).dedup
  else observedIds.dedup

/-- The initial confidence map of `infer`:
`obs_conf[fid] = clamp01(weights.get(fid, 1.0))`. -/
def buildObsConf (observed : List Concept) (weights : List (Concept × PyVal)) : ConfMap :=
  observed.map (fun fid => (fid, clamp01 ((lookup? weights fid).getD (.num 1))))

/-- The expanded confidence map computed by `infer` before rule evaluation. -/
def inferObservations (facts : List Fact) (parent : List (Concept × Concept))
    (observedIds : List Concept) (weights : List (Concept × PyVal))
    (useTrueFacts : Bool) : ConfMap :=
  expand_observation parent
    (buildObsConf (observedUnion observedIds facts useTrueFacts) weights)

/-- Round-half-to-even to an integer, as Python's `round` does. -/
def roundHalfEven (q : ℚ) : ℤ :=
  if q - ⌊q⌋ < 1 / 2 then ⌊q⌋
  else if 1 / 2 < q - ⌊q⌋ then ⌊q⌋ + 1
  else if Even ⌊q⌋ then ⌊q⌋ else ⌊q⌋ + 1

/-- Python's `round(x, 3)`. -/
def round3 (q : ℚ) : ℚ := (roundHalfEven (q * 1000) : ℚ) / 1000

/-- One entry of the `fired` list built by `infer`. -/
structure FiredRule where
  rule : String
  conclusion : Concept
  score : ℚ
  explain : String
  conditions : List Concept
deriving DecidableEq, Repr

/-- The fired-rules loop of `infer`: keep every rule with `fires` true and
`score > 0`, recording its rounded score. -/
def firedList (rules : List Rule) (obs_conf : ConfMap) : List FiredRule :=
  rules.filterMap (fun r =>
    let fs := evaluate_rule r obs_conf
    if fs.1 = true ∧ 0 < fs.2 then
      some ⟨r.id, r.conclusion, round3 fs.2, r.explain.getD "", r.conditions⟩
    else none)

/-- The aggregation loop of `infer`: per conclusion, the max fired score. -/
def aggregateConc (fired : List FiredRule) : List (Concept × ℚ) :=
  fired.foldl
    (fun agg r => setKey agg r.conclusion (max (getD agg r.conclusion 0) r.score)) []

/-- The `ranked` list of `infer`: aggregate entries re-rounded and stably
sorted by score descending (`sorted(..., key=score, reverse=True)`). -/
def rankedConclusions (fired : List FiredRule) : List (Concept × ℚ) :=
  ((aggregateConc fired).map (fun kv => (kv.1, round3 kv.2))).mergeSort
    (fun a b => decide (b.2 ≤ a.2))

/-! ### Association-list lemmas -/

theorem lookup?_eq_none_iff {α : Type} (m : List (Concept × α)) (j : Concept) :
    lookup? m j = none ↔ j ∉ m.map Prod.fst := by
  induction m with
  | nil => simp [lookup?]
  | cons kv rest ih =>
    obtain ⟨k, v⟩ := kv
    by_cases hk : k = j <;> simp [lookup?, hk, ih, Ne.symm]

theorem lookup?_mem_of_eq_some {α : Type} {m : List (Concept × α)} {j : Concept} {v : α}
    (h : lookup? m j = some v) : (j, v) ∈ m := by
  induction m with
  | nil => simp [lookup?] at h
  | cons kv rest ih =>
    obtain ⟨k, w⟩ := kv
    by_cases hk : k = j
    · subst hk
      simp [lookup?] at h
      simp [h]
    · simp [lookup?, hk] at h
      simp [ih h]

theorem lookup?_eq_some_of_mem {α : Type} {m : List (Concept × α)} {j : Concept} {v : α}
    (hnd : (m.map Prod.fst).Nodup) (h : (j, v) ∈ m) : lookup? m j = some v := by
  induction m with
  | nil => simp at h
  | cons kv rest ih =>
    obtain ⟨k, w⟩ := kv
    simp only [List.map_cons, List.nodup_cons] at hnd
    rcases List.mem_cons.mp h with h1 | h1
    · obtain ⟨rfl, rfl⟩ : j = k ∧ v = w := Prod.ext_iff.mp h1
      simp [lookup?]
    · have hj : j ∈ rest.map Prod.fst := List.mem_map.mpr ⟨(j, v), h1, rfl⟩
      have hkj : k ≠ j := fun he => hnd.1 (he.symm ▸ hj)
      simp [lookup?, hkj, ih hnd.2 h1]

theorem lookup?_eq_of_perm {α : Type} {m₁ m₂ : List (Concept × α)}
    (hnd : (m₁.map Prod.fst).Nodup) (hp : m₁.Perm m₂) (j : Concept) :
    lookup? m₁ j = lookup? m₂ j := by
  have hnd₂ : (m₂.map Prod.fst).Nodup := ((hp.map Prod.fst).nodup_iff).mp hnd
  cases h : lookup? m₁ j with
  | none =>
    have hj := (lookup?_eq_none_iff m₁ j).mp h
    have : j ∉ m₂.map Prod.fst := fun hc => hj ((hp.map Prod.fst).mem_iff.mpr hc)
    exact ((lookup?_eq_none_iff m₂ j).mpr this).symm
  | some v =>
    have hm := lookup?_mem_of_eq_some h
    exact (lookup?_eq_some_of_mem hnd₂ (hp.mem_iff.mp hm)).symm

theorem lookup?_setKey {α : Type} (m : List (Concept × α)) (k : Concept) (v : α) (j : Concept) :
    lookup? (setKey m k v) j = if k = j then some v else lookup? m j := by
  induction m with
  | nil => simp [setKey, lookup?]
  | cons kv rest ih =>
    obtain ⟨k', v'⟩ := kv
    by_cases h1 : k' = k
    · subst h1
      by_cases h2 : k' = j <;> simp [setKey, lookup?, h2]
    · by_cases h2 : k' = j
      · subst h2
        have : k ≠ k' := fun h => h1 h.symm
        simp [setKey, lookup?, h1, this]
      · simp [setKey, lookup?, h1, h2, ih]

theorem setKey_map_fst {α : Type} (m : List (Concept × α)) (k : Concept) (v : α) :
    (setKey m k v).map Prod.fst = if k ∈ m.map Prod.fst then m.map Prod.fst
      else m.map Prod.fst ++ [k] := by
  induction m with
  | nil => simp [setKey]
  | cons kv rest ih =>
    obtain ⟨k', v'⟩ := kv
    by_cases h1 : k' = k
    · subst h1
      simp [setKey]
    · have : ¬ k = k' := fun h => h1 h.symm
      by_cases h2 : k ∈ rest.map Prod.fst <;> simp [setKey, h1, this, h2, ih]

theorem setKey_nodup_keys {α : Type} {m : List (Concept × α)} (hnd : (m.map Prod.fst).Nodup)
    (k : Concept) (v : α) : ((setKey m k v).map Prod.fst).Nodup := by
  rw [setKey_map_fst]
  by_cases h : k ∈ m.map Prod.fst
  · simpa [h] using hnd
  · simpa [h] using List.Nodup.append hnd (List.nodup_singleton k) (by simpa using h)

/-! ### Bounds for `clamp01` -/

theorem clamp01_nonneg (w : PyVal) : 0 ≤ clamp01 w := by
  cases w with
  | num q => simp [clamp01]
  | nonNum => simp [clamp01]

theorem clamp01_le_one (w : PyVal) : clamp01 w ≤ 1 := by
  cases w with
  | num q => simp [clamp01, min_le_left, le_max_iff]
  | nonNum => simp [clamp01]

theorem clamp01_of_mem_Icc {q : ℚ} (h0 : 0 ≤ q) (h1 : q ≤ 1) : clamp01 (.num q) = q := by
  simp [clamp01, min_eq_right h1, max_eq_right h0]

/-! ### Characterisation of `expand_observation` -/

/-- Effect of one observation on one key of the accumulating dictionary. -/
def optUpd (parent : List (Concept × Concept)) (j : Concept)
    (o : Option ℚ) (fc : Concept × ℚ) : Option ℚ :=
  if j ∈ ancestors parent fc.1 then some (max (o.getD 0) fc.2) else o

/-- Max-accumulation on an optional current value (`max(m.get(k, 0.0), c)`). -/
def omax (o : Option ℚ) (c : ℚ) : Option ℚ := some (max (o.getD 0) c)

/-- The confidences of the observations that reach key `j` through the
taxonomy. -/
def contribs (parent : List (Concept × Concept)) (j : Concept) (obs : ConfMap) : List ℚ :=
  obs.filterMap (fun fc => if j ∈ ancestors parent fc.1 then some fc.2 else none)

theorem lookup?_bumpFold (l : List Concept) (e : ConfMap) (c : ℚ) (j : Concept) :
    lookup? (l.foldl (fun e anc => setKey e anc (max (getD e anc 0) c)) e) j
      = if j ∈ l then some (max (getD e j 0) c) else lookup? e j := by
  induction l generalizing e with
  | nil => simp
  | cons a t ih =>
    simp only [List.foldl_cons]
    rw [ih]
    by_cases ha : j = a
    · subst ha
      by_cases ht : j ∈ t
      · simp [ht, getD, lookup?_setKey, max_assoc]
      · simp [ht, getD, lookup?_setKey]
    · have haj : a ≠ j := fun h => ha h.symm
      by_cases ht : j ∈ t <;> simp [ht, ha, haj, getD, lookup?_setKey]

theorem lookup?_expandFold (parent : List (Concept × Concept)) (obs init : ConfMap)
    (j : Concept) :
    lookup? (obs.foldl
        (fun expanded fc =>
          (ancestors parent fc.1).foldl
            (fun e anc => setKey e anc (max (getD e anc 0) fc.2)) expanded)
        init) j
      = obs.foldl (optUpd parent j) (lookup? init j) := by
  induction obs generalizing init with
  | nil => simp
  | cons fc t ih =>
    simp only [List.foldl_cons]
    rw [ih, lookup?_bumpFold]
    by_cases h : j ∈ ancestors parent fc.1 <;> simp [optUpd, h, getD]

theorem foldl_const {α β : Type} (l : List α) (o : β) : l.foldl (fun o _ => o) o = o := by
  induction l <;> simp_all

theorem ancestors_nil (c : Concept) : ancestors [] c = [] := rfl

/-- Per-key characterisation of `expand_observation`, covering the identity
fast path as well. -/
theorem lookup?_expand (parent : List (Concept × Concept)) (obs : ConfMap) (j : Concept) :
    lookup? (expand_observation parent obs) j
      = obs.foldl (optUpd parent j) (lookup? obs j) := by
  by_cases hp : parent = []
  · subst hp
    have : ∀ o, obs.foldl (optUpd [] j) o = o := by
      intro o
      have : optUpd [] j = fun o _ => o := by
        funext o fc
        simp [optUpd, ancestors_nil]
      rw [this, foldl_const]
    simp [expand_observation, this]
  · simp [expand_observation, hp, lookup?_expandFold]

theorem foldl_optUpd_eq_contribs (parent : List (Concept × Concept)) (j : Concept)
    (obs : ConfMap) (o : Option ℚ) :
    obs.foldl (optUpd parent j) o = (contribs parent j obs).foldl omax o := by
  induction obs generalizing o with
  | nil => simp [contribs]
  | cons fc t ih =>
    by_cases h : j ∈ ancestors parent fc.1 <;>
      simp [contribs, List.filterMap_cons, optUpd, h, ih, omax]

theorem foldl_omax_some (l : List ℚ) (u : ℚ) :
    l.foldl omax (some u) = some (l.foldl max u) := by
  induction l generalizing u with
  | nil => simp
  | cons c t ih => simp [omax, ih]

theorem foldl_omax_eq_none_iff (l : List ℚ) (o : Option ℚ) :
    l.foldl omax o = none ↔ l = [] ∧ o = none := by
  cases l with
  | nil => simp
  | cons c t =>
    cases o with
    | none => simp [omax, foldl_omax_some]
    | some u => simp [omax, foldl_omax_some]

instance : RightCommutative omax :=
  ⟨fun o c c' => by
    simp only [omax, Option.getD_some]
    rw [max_assoc, max_comm c c', ← max_assoc]⟩

/-! ### The ancestor walk -/

theorem lookup?_mem_values {parent : List (Concept × Concept)} {x p : Concept}
    (h : lookup? parent x = some p) : p ∈ parent.map Prod.snd := by
  induction parent with
  | nil => simp [lookup?] at h
  | cons kv rest ih =>
    obtain ⟨k, v⟩ := kv
    by_cases hk : k = x
    · simp [lookup?, hk] at h
      simp [h]
    · simp [lookup?, hk] at h
      simp [ih h]

/-- How many distinct parent-map values the walk may still visit. -/
def notSeenCount (parent : List (Concept × Concept)) (seen : List Concept) : ℕ :=
  ((parent.map Prod.snd).dedup.filter (fun v => ¬ v ∈ seen)).length

theorem notSeenCount_le (parent : List (Concept × Concept)) (seen : List Concept) :
    notSeenCount parent seen ≤ parent.length := by
  have h1 := List.length_filter_le (fun v => decide (¬ v ∈ seen)) (parent.map Prod.snd).dedup
  have h2 := (List.dedup_sublist (parent.map Prod.snd)).length_le
  simpa [notSeenCount] using le_trans h1 (le_trans h2 (by simp))

theorem notSeenCount_drop {parent : List (Concept × Concept)} {seen : List Concept}
    {x p : Concept} (h : lookup? parent x = some p) (hp : p ∉ seen) :
    notSeenCount parent (p :: seen) + 1 = notSeenCount parent seen := by
  have hD : ((parent.map Prod.snd).dedup).Nodup := List.nodup_dedup _
  have hpD : p ∈ (parent.map Prod.snd).dedup := List.mem_dedup.mpr (lookup?_mem_values h)
  have hL : ((parent.map Prod.snd).dedup.filter (fun v => ¬ v ∈ seen)).Nodup :=
    hD.filter _
  have hpL : p ∈ (parent.map Prod.snd).dedup.filter (fun v => ¬ v ∈ seen) :=
    List.mem_filter.mpr ⟨hpD, by simpa using hp⟩
  have key : (parent.map Prod.snd).dedup.filter (fun v => ¬ v ∈ p :: seen)
      = ((parent.map Prod.snd).dedup.filter (fun v => ¬ v ∈ seen)).filter (fun v => v != p) := by
    rw [List.filter_filter]
    apply List.filter_congr
    intro y _
    by_cases hy : y = p <;> by_cases hs : y ∈ seen <;> simp [hy, hs]
  have erase_eq := hL.erase_eq_filter p
  have hlen := List.length_erase_of_mem hpL
  have hpos : 1 ≤ ((parent.map Prod.snd).dedup.filter (fun v => ¬ v ∈ seen)).length :=
    List.length_pos.mpr (List.ne_nil_of_mem hpL)
  calc notSeenCount parent (p :: seen) + 1
      = ((parent.map Prod.snd).dedup.filter (fun v => ¬ v ∈ seen)).length - 1 + 1 := by
        rw [notSeenCount, key, ← erase_eq, hlen]
    _ = notSeenCount parent seen := by
        rw [Nat.sub_add_cancel hpos, notSeenCount]

theorem ancestorsAux_of_count_zero {parent : List (Concept × Concept)}
    {seen : List Concept} (h : notSeenCount parent seen = 0) (fuel : Nat) (cur : Concept) :
    ancestorsAux parent fuel cur seen = [] := by
  cases fuel with
  | zero => rfl
  | succ n =>
    cases hl : lookup? parent cur with
    | none => simp [ancestorsAux, hl]
    | some p =>
      by_cases hp : p ∈ seen
      · simp [ancestorsAux, hl, hp]
      · exfalso
        have hpL : p ∈ (parent.map Prod.snd).dedup.filter (fun v => ¬ v ∈ seen) :=
          List.mem_filter.mpr ⟨List.mem_dedup.mpr (lookup?_mem_values hl), by simpa using hp⟩
        have := List.length_pos.mpr (List.ne_nil_of_mem hpL)
        rw [notSeenCount] at h
        omega

theorem ancestorsAux_stable {parent : List (Concept × Concept)} :
    ∀ fuel₁ fuel₂ (cur : Concept) (seen : List Concept),
      notSeenCount parent seen ≤ fuel₁ → notSeenCount parent seen ≤ fuel₂ →
      ancestorsAux parent fuel₁ cur seen = ancestorsAux parent fuel₂ cur seen := by
  intro fuel₁
  induction fuel₁ with
  | zero =>
    intro fuel₂ cur seen h1 _
    have h0 : notSeenCount parent seen = 0 := Nat.le_zero.mp h1
    rw [ancestorsAux_of_count_zero h0, ancestorsAux_of_count_zero h0]
  | succ m ih =>
    intro fuel₂ cur seen h1 h2
    cases fuel₂ with
    | zero =>
      have h0 : notSeenCount parent seen = 0 := Nat.le_zero.mp h2
      rw [ancestorsAux_of_count_zero h0, ancestorsAux_of_count_zero h0]
    | succ n =>
      cases hl : lookup? parent cur with
      | none => simp [ancestorsAux, hl]
      | some p =>
        by_cases hp : p ∈ seen
        · simp [ancestorsAux, hl, hp]
        · have hdrop := notSeenCount_drop hl hp
          have hm : notSeenCount parent (p :: seen) ≤ m := by omega
          have hn : notSeenCount parent (p :: seen) ≤ n := by omega
          simp [ancestorsAux, hl, hp, ih n p (p :: seen) hm hn]

theorem ancestorsAux_length {parent : List (Concept × Concept)} :
    ∀ (fuel : Nat) (cur : Concept) (seen : List Concept),
      (ancestorsAux parent fuel cur seen).length ≤ notSeenCount parent seen := by
  intro fuel
  induction fuel with
  | zero => intro cur seen; simp [ancestorsAux]
  | succ n ih =>
    intro cur seen
    cases hl : lookup? parent cur with
    | none => simp [ancestorsAux, hl]
    | some p =>
      by_cases hp : p ∈ seen
      · simp [ancestorsAux, hl, hp]
      · have hdrop := notSeenCount_drop hl hp
        have := ih p (p :: seen)
        simp only [ancestorsAux, hl, hp, if_false, List.length_cons]
        omega

theorem ancestorsAux_nodup_and {parent : List (Concept × Concept)} :
    ∀ (fuel : Nat) (cur : Concept) (seen : List Concept),
      (ancestorsAux parent fuel cur seen).Nodup ∧
        ∀ x ∈ ancestorsAux parent fuel cur seen, x ∉ seen := by
  intro fuel
  induction fuel with
  | zero => intro cur seen; simp [ancestorsAux]
  | succ n ih =>
    intro cur seen
    cases hl : lookup? parent cur with
    | none => simp [ancestorsAux, hl]
    | some p =>
      by_cases hp : p ∈ seen
      · simp [ancestorsAux, hl, hp]
      · obtain ⟨hnd, hout⟩ := ih p (p :: seen)
        refine ⟨?_, ?_⟩
        · simp only [ancestorsAux, hl, hp, if_false, List.nodup_cons]
          exact ⟨fun hc => (hout p hc) (List.mem_cons_self p seen), hnd⟩
        · intro x hx
          simp only [ancestorsAux, hl, hp, if_false, List.mem_cons] at hx
          rcases hx with rfl | hx
          · exact hp
          · exact fun hc => (hout x hx) (List.mem_cons_of_mem p hc)

theorem ancestorsAux_chain (parent : List (Concept × Concept)) :
    ∀ (fuel : Nat) (cur : Concept) (seen : List Concept),
      List.Chain (parentStep parent) cur (ancestorsAux parent fuel cur seen) := by
  intro fuel
  induction fuel with
  | zero => intro cur seen; simp [ancestorsAux]
  | succ n ih =>
    intro cur seen
    cases hl : lookup? parent cur with
    | none => simp [ancestorsAux, hl]
    | some p =>
      by_cases hp : p ∈ seen
      · simp [ancestorsAux, hl, hp]
      · simp only [ancestorsAux, hl, hp, if_false]
        exact List.Chain.cons hl (ih p (p :: seen))

theorem transGen_of_mem_ancestorsAux {parent : List (Concept × Concept)} :
    ∀ (fuel : Nat) (cur : Concept) (seen : List Concept) (x : Concept),
      x ∈ ancestorsAux parent fuel cur seen →
      Relation.TransGen (parentStep parent) cur x := by
  intro fuel
  induction fuel with
  | zero => intro cur seen x hx; simp [ancestorsAux] at hx
  | succ n ih =>
    intro cur seen x hx
    cases hl : lookup? parent cur with
    | none => simp [ancestorsAux, hl] at hx
    | some p =>
      by_cases hp : p ∈ seen
      · simp [ancestorsAux, hl, hp] at hx
      · simp only [ancestorsAux, hl, hp, if_false, List.mem_cons] at hx
        rcases hx with rfl | hx
        · exact Relation.TransGen.single hl
        · exact Relation.TransGen.head hl (ih p (p :: seen) x hx)

theorem transGen_mem_values {parent : List (Concept × Concept)} {x y : Concept}
    (h : Relation.TransGen (parentStep parent) x y) : y ∈ parent.map Prod.snd := by
  induction h with
  | single h => exact lookup?_mem_values h
  | tail _ h _ => exact lookup?_mem_values h

/-! ### Rule evaluation -/

theorem condScores_eq_map {m : ConfMap} :
    ∀ {l : List Concept}, (∀ cid ∈ l, 0 < clamp01 (.num (getD m cid 0))) →
      condScores m l = some (l.map fun cid => clamp01 (.num (getD m cid 0)))
  | [], _ => by simp [condScores]
  | c :: t, h => by
    have hc : ¬ clamp01 (.num (getD m c 0)) ≤ 0 :=
      not_le.mpr (h c (List.mem_cons_self c t))
    have ht := condScores_eq_map (fun cid hcid => h cid (List.mem_cons_of_mem c hcid))
    simp [condScores, hc, ht]

theorem condScores_eq_none_iff (m : ConfMap) :
    ∀ l : List Concept,
      condScores m l = none ↔ ∃ cid ∈ l, clamp01 (.num (getD m cid 0)) ≤ 0
  | [] => by simp [condScores]
  | c :: t => by
    by_cases hc : clamp01 (.num (getD m c 0)) ≤ 0
    · simp [condScores, hc]
    · simp [condScores, hc, condScores_eq_none_iff m t]

theorem condScores_eq_some_nil_iff (m : ConfMap) (l : List Concept) :
    condScores m l = some [] ↔ l = [] := by
  cases l with
  | nil => simp [condScores]
  | cons c t =>
    by_cases hc : clamp01 (.num (getD m c 0)) ≤ 0 <;> simp [condScores, hc]

theorem evaluate_rule_fires {rule : Rule} {m : ConfMap} {c : Concept} {cs : List Concept}
    (hc : rule.conditions = c :: cs)
    (hpos : ∀ cid ∈ rule.conditions, 0 < clamp01 (.num (getD m cid 0))) :
    evaluate_rule rule m =
      (true, ((cs.map fun cid => clamp01 (.num (getD m cid 0))).foldl min
          (clamp01 (.num (getD m c 0)))) * clamp01 (.num (rule.certainty.getD 1))) := by
  have h2 : condScores m rule.conditions
      = some ((c :: cs).map fun cid => clamp01 (.num (getD m cid 0))) := by
    rw [hc]
    exact condScores_eq_map (hc ▸ hpos)
  simp [evaluate_rule, h2]

theorem evaluate_rule_and_gate (rule : Rule) (m : ConfMap) :
    evaluate_rule rule m = (false, 0) ↔
      rule.conditions = [] ∨ ∃ cid ∈ rule.conditions, clamp01 (.num (getD m cid 0)) ≤ 0 := by
  cases hs : condScores m rule.conditions with
  | none =>
    have := (condScores_eq_none_iff m rule.conditions).mp hs
    simp [evaluate_rule, hs, this]
  | some scores =>
    cases scores with
    | nil =>
      have := (condScores_eq_some_nil_iff m rule.conditions).mp hs
      simp [evaluate_rule, hs, this, condScores]
    | cons s ss =>
      have h1 : rule.conditions ≠ [] := by
        intro h
        rw [h] at hs
        simp [condScores] at hs
      have h2 : ¬ ∃ cid ∈ rule.conditions, clamp01 (.num (getD m cid 0)) ≤ 0 := by
        intro h
        rw [← condScores_eq_none_iff m rule.conditions] at h
        rw [hs] at h
        exact Option.noConfusion h
      simp [evaluate_rule, hs, h1, h2]

/-! ### The initial confidence map -/

theorem lookup?_buildObsConf (observed : List Concept) (weights : List (Concept × PyVal))
    (j : Concept) :
    lookup? (buildObsConf observed weights) j =
      if j ∈ observed then some (clamp01 ((lookup? weights j).getD (.num 1))) else none := by
  induction observed with
  | nil => simp [buildObsConf, lookup?]
  | cons f t ih =>
    by_cases hf : f = j
    · subst hf
      simp [buildObsConf, lookup?]
    · have hne : ¬ j = f := fun h => hf h.symm
      have ih2 : lookup? (t.map fun fid => (fid, clamp01 ((lookup? weights fid).getD (.num 1)))) j
          = if j ∈ t then some (clamp01 ((lookup? weights j).getD (.num 1))) else none := ih
      simp [buildObsConf, lookup?, hf, hne, ih2]

/-! ### Generic fold-of-`setKey` lemmas (for `FACT_VALUE` and the aggregation) -/

theorem lookup?_foldl_setKey_not_mem {α β : Type} {l : List β} {key : β → Concept}
    {val : List (Concept × α) → β → α} {j : Concept} (h : ∀ b ∈ l, key b ≠ j) :
    ∀ d, lookup? (l.foldl (fun d b => setKey d (key b) (val d b)) d) j = lookup? d j := by
  induction l with
  | nil => intro d; rfl
  | cons b t ih =>
    intro d
    have hb : key b ≠ j := h b (List.mem_cons_self b t)
    have ht : ∀ x ∈ t, key x ≠ j := fun x hx => h x (List.mem_cons_of_mem b hx)
    simp only [List.foldl_cons]
    rw [ih ht, lookup?_setKey, if_neg hb]

theorem foldl_setKey_nodup_keys {α β : Type} (l : List β) (key : β → Concept)
    (val : List (Concept × α) → β → α) :
    ∀ d : List (Concept × α), ((d.map Prod.fst).Nodup) →
      (((l.foldl (fun d b => setKey d (key b) (val d b)) d)).map Prod.fst).Nodup := by
  induction l with
  | nil => intro d hd; exact hd
  | cons b t ih =>
    intro d hd
    simp only [List.foldl_cons]
    exact ih _ (setKey_nodup_keys hd _ _)

theorem FACT_VALUE_nodup_keys (facts : List Fact) :
    ((FACT_VALUE facts).map Prod.fst).Nodup :=
  foldl_setKey_nodup_keys facts Fact.id (fun _ f => f.value) [] (by simp)

theorem lookup?_FACT_VALUE {facts : List Fact} (hnd : (facts.map Fact.id).Nodup)
    {f : Fact} (hf : f ∈ facts) : lookup? (FACT_VALUE facts) f.id = some f.value := by
  suffices h : ∀ d, lookup? (facts.foldl (fun d g => setKey d g.id g.value) d) f.id
      = some f.value by
    exact h []
  induction facts with
  | nil => simp at hf
  | cons g t ih =>
    intro d
    simp only [List.map_cons, List.nodup_cons] at hnd
    simp only [List.foldl_cons]
    rcases List.mem_cons.mp hf with rfl | hf1
    · have hnm : ∀ b ∈ t, Fact.id b ≠ f.id := by
        intro b hb he
        exact hnd.1 (he ▸ List.mem_map.mpr ⟨b, hb, rfl⟩)
      rw [lookup?_foldl_setKey_not_mem hnm, lookup?_setKey, if_pos rfl]
    · exact ih hnd.2 hf1 _

theorem mem_trueFactIds_iff {facts : List Fact} (hnd : (facts.map Fact.id).Nodup)
    {f : Fact} (hf : f ∈ facts) : f.id ∈ trueFactIds facts ↔ f.value = true := by
  constructor
  · intro h
    obtain ⟨p, hp, hpe⟩ := List.mem_filterMap.mp h
    by_cases hv : p.2 <;> simp [hv] at hpe
    have h1 : lookup? (FACT_VALUE facts) p.1 = some p.2 :=
      lookup?_eq_some_of_mem (FACT_VALUE_nodup_keys facts) hp
    rw [hpe] at h1
    rw [lookup?_FACT_VALUE hnd hf] at h1
    have h2 : some f.value = some true := by rw [h1, hv]
    exact Option.some.inj h2
  · intro h
    have h1 : (f.id, true) ∈ FACT_VALUE facts :=
      lookup?_mem_of_eq_some (h ▸ lookup?_FACT_VALUE hnd hf)
    exact List.mem_filterMap.mpr ⟨(f.id, true), h1, by simp⟩

/-! ### Rounding -/

theorem roundHalfEven_intCast (n : ℤ) : roundHalfEven (n : ℚ) = n := by
  have h : ((n : ℚ) - ⌊(n : ℚ)⌋ : ℚ) = 0 := by simp
  rw [roundHalfEven, if_pos]
  · simp
  · rw [h]
    norm_num

theorem roundHalfEven_nonneg {q : ℚ} (h : 0 ≤ q) : 0 ≤ roundHalfEven q := by
  have h0 : (0 : ℤ) ≤ ⌊q⌋ := Int.floor_nonneg.mpr h
  rw [roundHalfEven]
  split_ifs <;> omega

theorem round3_nonneg {q : ℚ} (h : 0 ≤ q) : 0 ≤ round3 q := by
  have := @roundHalfEven_nonneg (q * 1000) (by positivity)
  rw [round3]
  positivity

theorem round3_idem (q : ℚ) : round3 (round3 q) = round3 q := by
  rw [round3, round3]
  have h : (roundHalfEven (q * 1000) : ℚ) / 1000 * 1000 = (roundHalfEven (q * 1000) : ℚ) := by
    field_simp
  rw [h, roundHalfEven_intCast]

/-! ### Maxima via left folds -/

theorem foldl_max_mem (l : List ℚ) (s : ℚ) : l.foldl max s ∈ s :: l := by
  induction l generalizing s with
  | nil => simp
  | cons c t ih =>
    have := ih (max s c)
    rcases List.mem_cons.mp this with h | h
    · rcases max_choice s c with h1 | h1 <;> rw [List.foldl_cons, h, h1] <;> simp
    · simp [List.foldl_cons, List.mem_cons.mpr (Or.inr (List.mem_cons_of_mem c h))]

theorem le_foldl_max (l : List ℚ) (s : ℚ) :
    s ≤ l.foldl max s ∧ ∀ x ∈ l, x ≤ l.foldl max s := by
  induction l generalizing s with
  | nil => simp
  | cons c t ih =>
    obtain ⟨h1, h2⟩ := ih (max s c)
    refine ⟨le_trans (le_max_left s c) h1, ?_⟩
    intro x hx
    rcases List.mem_cons.mp hx with rfl | hx
    · exact le_trans (le_max_right s x) h1
    · exact h2 x hx

/-! ### Characterisation of the conclusion aggregation -/

/-- The scores of the fired rules sharing conclusion `k`. -/
def matchScores (fired : List FiredRule) (k : Concept) : List ℚ :=
  fired.filterMap fun r => if r.conclusion = k then some r.score else none

theorem lookup?_aggFold (fired : List FiredRule) (d : List (Concept × ℚ)) (k : Concept) :
    lookup? (fired.foldl
        (fun agg r => setKey agg r.conclusion (max (getD agg r.conclusion 0) r.score)) d) k
      = (matchScores fired k).foldl omax (lookup? d k) := by
  induction fired generalizing d with
  | nil => simp [matchScores]
  | cons r t ih =>
    simp only [List.foldl_cons]
    rw [ih]
    by_cases h : r.conclusion = k
    · subst h
      simp [matchScores, List.filterMap_cons, omax, lookup?_setKey, getD]
    · simp [matchScores, List.filterMap_cons, h, lookup?_setKey]

theorem lookup?_aggregateConc (fired : List FiredRule) (k : Concept) :
    lookup? (aggregateConc fired) k = (matchScores fired k).foldl omax none := by
  rw [aggregateConc, lookup?_aggFold]
  rfl

theorem aggregateConc_nodup_keys (fired : List FiredRule) :
    ((aggregateConc fired).map Prod.fst).Nodup :=
  foldl_setKey_nodup_keys fired FiredRule.conclusion
    (fun agg r => max (getD agg r.conclusion 0) r.score) [] (by simp)

theorem matchScores_eq_nil_iff (fired : List FiredRule) (k : Concept) :
    matchScores fired k = [] ↔ ∀ r ∈ fired, r.conclusion ≠ k := by
  rw [matchScores, List.filterMap_eq_nil_iff]
  constructor
  · intro h r hr he
    have := h r hr
    simp [he] at this
  · intro h r hr
    simp [h r hr]

theorem mem_matchScores {fired : List FiredRule} {k : Concept} {s : ℚ} :
    s ∈ matchScores fired k ↔ ∃ r ∈ fired, r.conclusion = k ∧ r.score = s := by
  rw [matchScores]
  constructor
  · intro h
    obtain ⟨r, hr, hre⟩ := List.mem_filterMap.mp h
    by_cases hc : r.conclusion = k <;> simp [hc] at hre
    exact ⟨r, hr, hc, hre⟩
  · rintro ⟨r, hr, hc, hs⟩
    exact List.mem_filterMap.mpr ⟨r, hr, by simp [hc, hs]⟩

/-! ### The fired-rules list and the ranked output -/

theorem mem_firedList {rules : List Rule} {m : ConfMap} {r : FiredRule} :
    r ∈ firedList rules m ↔ ∃ rule ∈ rules,
      (evaluate_rule rule m).1 = true ∧ 0 < (evaluate_rule rule m).2 ∧
      r = ⟨rule.id, rule.conclusion, round3 (evaluate_rule rule m).2,
            rule.explain.getD "", rule.conditions⟩ := by
  rw [firedList, List.mem_filterMap]
  constructor
  · rintro ⟨rule, hrule, he⟩
    simp only at he
    split at he
    next hc => exact ⟨rule, hrule, hc.1, hc.2, (Option.some.inj he).symm⟩
    next => exact absurd he (by simp)
  · rintro ⟨rule, hrule, h1, h2, rfl⟩
    exact ⟨rule, hrule, by simp [h1, h2]⟩

theorem firedList_score {rules : List Rule} {m : ConfMap} {r : FiredRule}
    (hr : r ∈ firedList rules m) : 0 ≤ r.score ∧ round3 r.score = r.score := by
  obtain ⟨rule, _, _, hpos, rfl⟩ := mem_firedList.mp hr
  exact ⟨round3_nonneg (le_of_lt hpos), round3_idem _⟩

theorem rankedConclusions_perm (fired : List FiredRule) :
    (rankedConclusions fired).Perm
      ((aggregateConc fired).map fun kv => (kv.1, round3 kv.2)) :=
  List.mergeSort_perm _ _

theorem mem_agg_keys_iff (fired : List FiredRule) (k : Concept) :
    k ∈ (aggregateConc fired).map Prod.fst ↔ k ∈ fired.map FiredRule.conclusion := by
  rw [← not_iff_not, ← lookup?_eq_none_iff, lookup?_aggregateConc, foldl_omax_eq_none_iff]
  simp only [and_true, matchScores_eq_nil_iff]
  constructor
  · intro h hk
    obtain ⟨r, hr, he⟩ := List.mem_map.mp hk
    exact h r hr he
  · intro h r hr he
    exact h (List.mem_map.mpr ⟨r, hr, he⟩)

theorem lookup?_agg_value {fired : List FiredRule} {kv : Concept × ℚ}
    (hnn : ∀ r ∈ fired, 0 ≤ r.score) (hkv : kv ∈ aggregateConc fired) :
    kv.2 ∈ matchScores fired kv.1 ∧ ∀ s ∈ matchScores fired kv.1, s ≤ kv.2 := by
  have hl : lookup? (aggregateConc fired) kv.1 = some kv.2 :=
    lookup?_eq_some_of_mem (aggregateConc_nodup_keys fired) hkv
  rw [lookup?_aggregateConc] at hl
  cases hms : matchScores fired kv.1 with
  | nil => rw [hms] at hl; simp at hl
  | cons s ss =>
    rw [hms] at hl
    have hs0 : 0 ≤ s := by
      have : s ∈ matchScores fired kv.1 := by rw [hms]; exact List.mem_cons_self s ss
      obtain ⟨r, hr, _, he⟩ := mem_matchScores.mp this
      exact he ▸ hnn r hr
    have hmax : max 0 s = s := max_eq_right hs0
    simp only [List.foldl_cons, omax, Option.getD_none] at hl
    rw [hmax, foldl_omax_some, Option.some.injEq] at hl
    rw [← hl]
    constructor
    · exact foldl_max_mem ss s
    · intro x hx
      rcases List.mem_cons.mp hx with rfl | hx
      · exact (le_foldl_max ss x).1
      · exact (le_foldl_max ss s).2 x hx

theorem rankedConclusions_sorted (fired : List FiredRule) :
    (rankedConclusions fired).Pairwise (fun a b => b.2 ≤ a.2) := by
  have h := @List.sorted_mergeSort (Concept × ℚ)
    (fun a b : Concept × ℚ => decide (b.2 ≤ a.2))
    (fun a b c hab hbc => by
      simp only [decide_eq_true_eq] at hab hbc ⊢
      exact le_trans hbc hab)
    (fun a b => by
      rcases le_total b.2 a.2 with h | h <;> simp [h])
    ((aggregateConc fired).map fun kv => (kv.1, round3 kv.2))
  rw [rankedConclusions]
  exact h.imp (fun hab => by simpa using hab)

/-! ### Claim theorems -/

/-- C1: for every rule whose condition list is non-empty and whose every
condition has clamped confidence strictly greater than `0.0` in the confidence
map, `evaluate_rule` returns fires = true with score equal to the minimum of
the conditions' clamped confidences multiplied by the rule's clamped certainty
factor (defaulting to `1.0` when unspecified). -/
theorem claim_C1_weakest_link (rule : Rule) (m : ConfMap) (c : Concept)
    (cs : List Concept) (hc : rule.conditions = c :: cs)
    (hpos : ∀ cid ∈ rule.conditions, 0 < clamp01 (.num (getD m cid 0))) :
    evaluate_rule rule m =
      (true, ((cs.map fun cid => clamp01 (.num (getD m cid 0))).foldl min
          (clamp01 (.num (getD m c 0)))) * clamp01 (.num (rule.certainty.getD 1))) :=
  evaluate_rule_fires hc hpos

/-- Witness for C1, the spec's own example: confidences `[0.9, 0.3, 0.6]` and
certainty `0.5` yield score `0.15`. -/
theorem claim_C1_witness :
    evaluate_rule ⟨"r1", ["c1", "c2", "c3"], "d", some 0.5, none⟩
      [("c1", 0.9), ("c2", 0.3), ("c3", 0.6)] = (true, 0.15) := by
  have hp : ∀ cid ∈ (["c1", "c2", "c3"] : List Concept),
      0 < clamp01 (.num (getD [("c1", (0.9 : ℚ)), ("c2", 0.3), ("c3", 0.6)] cid 0)) := by
    intro cid hcid
    fin_cases hcid <;> norm_num +decide [getD, lookup?, clamp01, min_def, max_def]
  rw [claim_C1_weakest_link _ _ "c1" ["c2", "c3"] rfl hp]
  norm_num +decide [getD, lookup?, clamp01, List.foldl, min_def, max_def, Prod.ext_iff]

/-- C5: `evaluate_rule` returns `(false, 0.0)` exactly when the condition list
is empty or some condition's clamped confidence (`0.0` when absent) is `≤ 0`;
in particular a rule with an absent condition never fires. -/
theorem claim_C5_and_gate (rule : Rule) (m : ConfMap) :
    evaluate_rule rule m = (false, 0) ↔
      rule.conditions = [] ∨ ∃ cid ∈ rule.conditions, clamp01 (.num (getD m cid 0)) ≤ 0 :=
  evaluate_rule_and_gate rule m

/-- Witness for C5: condition `y` is absent from the map, so the rule does not
fire despite certainty `0.9`. -/
theorem claim_C5_witness :
    evaluate_rule ⟨"r2", ["x", "y"], "z", some 0.9, none⟩ [("x", 0.8)] = (false, 0) := by
  refine (claim_C5_and_gate _ _).mpr (Or.inr ⟨"y", by decide, ?_⟩)
  norm_num +decide [getD, lookup?, clamp01]

/-- C2 is false as stated: a non-numeric weight entry for an observed concept
yields initial confidence `0.0` (the conversion failure is swallowed inside
`clamp01`), not the absent-weight default `1.0`. -/
theorem claim_C2_counterexample :
    lookup? (inferObservations [] [] ["c"] [("c", PyVal.nonNum)] false) "c" = some 0 ∧
    ¬ lookup? (inferObservations [] [] ["c"] [("c", PyVal.nonNum)] false) "c" = some 1 := by
  have h : lookup? (inferObservations [] [] ["c"] [("c", PyVal.nonNum)] false) "c"
      = some 0 := by
    norm_num +decide [inferObservations, observedUnion, buildObsConf, expand_observation,
      lookup?, clamp01, List.dedup]
  refine ⟨h, ?_⟩
  rw [h]
  norm_num

/-- C2 (amended): a non-numeric weight entry for an observed concept yields
initial confidence `0.0` (and no error is raised — the build is total). -/
theorem claim_C2_amended (observed : List Concept) (weights : List (Concept × PyVal))
    (j : Concept) (hj : j ∈ observed) (hw : lookup? weights j = some PyVal.nonNum) :
    lookup? (buildObsConf observed weights) j = some 0 := by
  rw [lookup?_buildObsConf, if_pos hj, hw]
  rfl

/-- Witness for the amended C2. -/
theorem claim_C2_witness :
    lookup? (buildObsConf ["c"] [("c", PyVal.nonNum)]) "c" = some 0 :=
  claim_C2_amended ["c"] [("c", PyVal.nonNum)] "c" (by decide) rfl

theorem buildObsConf_value_bounds {observed : List Concept}
    {weights : List (Concept × PyVal)} {fc : Concept × ℚ}
    (h : fc ∈ buildObsConf observed weights) : 0 ≤ fc.2 ∧ fc.2 ≤ 1 := by
  obtain ⟨fid, _, rfl⟩ := List.mem_map.mp h
  exact ⟨clamp01_nonneg _, clamp01_le_one _⟩

theorem foldl_omax_bounds :
    ∀ (l : List ℚ), (∀ x ∈ l, 0 ≤ x ∧ x ≤ 1) →
      ∀ (o : Option ℚ), (∀ u, o = some u → 0 ≤ u ∧ u ≤ 1) →
      ∀ v, l.foldl omax o = some v → 0 ≤ v ∧ v ≤ 1
  | [], _, o, ho, v, hv => ho v hv
  | c :: t, hl, o, ho, v, hv => by
    refine foldl_omax_bounds t (fun x hx => hl x (List.mem_cons_of_mem c hx))
      (omax o c) ?_ v hv
    intro u hu
    obtain ⟨hc0, hc1⟩ := hl c (List.mem_cons_self c t)
    rw [omax, Option.some.injEq] at hu
    cases o with
    | none =>
      simp only [Option.getD_none] at hu
      exact hu ▸ ⟨le_max_left 0 c, max_le (by norm_num) hc1⟩
    | some w =>
      obtain ⟨hw0, hw1⟩ := ho w rfl
      simp only [Option.getD_some] at hu
      exact hu ▸ ⟨le_trans hw0 (le_max_left w c), max_le hw1 hc1⟩

theorem mem_of_mem_contribs {parent : List (Concept × Concept)} {j : Concept}
    {obs : ConfMap} {x : ℚ} (h : x ∈ contribs parent j obs) :
    ∃ fc ∈ obs, fc.2 = x := by
  obtain ⟨fc, hfc, he⟩ := List.mem_filterMap.mp h
  by_cases hj : j ∈ ancestors parent fc.1 <;> simp [hj] at he
  exact ⟨fc, hfc, he⟩

/-- C4: a numeric weight is clamped to `[0, 1]` (`1.5 ↦ 1.0`, `-0.2 ↦ 0.0`,
in-range values unchanged), the confidence assigned to an observed concept is
its clamped weight, and consequently every confidence in the built and
expanded maps lies in `[0, 1]`. -/
theorem claim_C4_clamp :
    clamp01 (.num 1.5) = 1 ∧ clamp01 (.num (-0.2)) = 0 ∧
    (∀ q : ℚ, 0 ≤ q → q ≤ 1 → clamp01 (.num q) = q) ∧
    (∀ (observed : List Concept) (weights : List (Concept × PyVal)) (j : Concept) (q : ℚ),
      j ∈ observed → lookup? weights j = some (.num q) →
      lookup? (buildObsConf observed weights) j = some (max 0 (min 1 q))) ∧
    (∀ (observed : List Concept) (weights : List (Concept × PyVal)) (fc : Concept × ℚ),
      fc ∈ buildObsConf observed weights → 0 ≤ fc.2 ∧ fc.2 ≤ 1) ∧
    (∀ (parent : List (Concept × Concept)) (observed : List Concept)
        (weights : List (Concept × PyVal)) (j : Concept) (v : ℚ),
      lookup? (expand_observation parent (buildObsConf observed weights)) j = some v →
      0 ≤ v ∧ v ≤ 1) := by
  refine ⟨by norm_num [clamp01, min_def, max_def], by norm_num [clamp01, min_def, max_def],
    fun q h0 h1 => clamp01_of_mem_Icc h0 h1, ?_, fun _ _ _ h => buildObsConf_value_bounds h, ?_⟩
  · intro observed weights j q hj hw
    rw [lookup?_buildObsConf, if_pos hj, hw]
    rfl
  · intro parent observed weights j v hv
    rw [lookup?_expand, foldl_optUpd_eq_contribs] at hv
    refine foldl_omax_bounds _ ?_ _ ?_ v hv
    · intro x hx
      obtain ⟨fc, hfc, he⟩ := mem_of_mem_contribs hx
      exact he ▸ buildObsConf_value_bounds hfc
    · intro u hu
      rw [lookup?_buildObsConf] at hu
      by_cases hj : j ∈ observed
      · rw [if_pos hj, Option.some.injEq] at hu
        exact hu ▸ ⟨clamp01_nonneg _, clamp01_le_one _⟩
      · rw [if_neg hj] at hu
        exact Option.noConfusion hu

/-- Witness for C4: weight `1.5` on observation `a` is stored as confidence
`1.0`, and in-range weights pass through unchanged. -/
theorem claim_C4_witness :
    clamp01 (.num 0.7) = 0.7 ∧
    lookup? (buildObsConf ["a"] [("a", .num 1.5)]) "a" = some (max 0 (min 1 1.5)) ∧
    (0 ≤ (1 : ℚ) ∧ (1 : ℚ) ≤ 1) := by
  obtain ⟨h1, h2, h3, h4, h5, h6⟩ := claim_C4_clamp
  refine ⟨h3 0.7 (by norm_num) (by norm_num),
    h4 ["a"] [("a", .num 1.5)] "a" 1.5 (by decide) (by rfl),
    h6 [] ["a"] [("a", .num 1.5)] "a" 1 ?_⟩
  norm_num +decide [expand_observation, buildObsConf, lookup?, clamp01, min_def, max_def]

/-- C6: expanding two observation maps that are permutations of each other
(with unique keys, as Python dict items are) yields maps that agree on every
key — propagation is order-independent, each concept getting the max over all
contributing observations. -/
theorem claim_C6_order_independent (parent : List (Concept × Concept))
    (obs₁ obs₂ : ConfMap) (hnd : (obs₁.map Prod.fst).Nodup) (hp : obs₁.Perm obs₂)
    (j : Concept) :
    lookup? (expand_observation parent obs₁) j
      = lookup? (expand_observation parent obs₂) j := by
  rw [lookup?_expand, lookup?_expand, foldl_optUpd_eq_contribs, foldl_optUpd_eq_contribs]
  rw [lookup?_eq_of_perm hnd hp j]
  exact (hp.filterMap _).foldl_eq _

/-- Witness for C6, the spec's example: `{a: 0.9, b: 0.4}` through taxonomy
`{a → root, b → root}` gives `root ↦ 0.9` in either iteration order. -/
theorem claim_C6_witness :
    lookup? (expand_observation [("a", "root"), ("b", "root")]
        [("a", 0.9), ("b", 0.4)]) "root"
      = lookup? (expand_observation [("a", "root"), ("b", "root")]
        [("b", 0.4), ("a", 0.9)]) "root" ∧
    lookup? (expand_observation [("a", "root"), ("b", "root")]
        [("a", 0.9), ("b", 0.4)]) "root" = some 0.9 := by
  constructor
  · exact claim_C6_order_independent _ _ _ (by decide)
      (List.Perm.swap ("b", 0.4) ("a", 0.9) []) "root"
  · norm_num +decide [expand_observation, ancestors, ancestorsAux, lookup?, setKey, getD,
      List.foldl, min_def, max_def]

/-- C7: for every parent mapping — cyclic ones included — the ancestor walk
terminates: its result is already stable at the built-in fuel bound (extra
fuel never changes it), it visits at most `parent.length` concepts, and the
visited-parents guard never lets it revisit a parent. -/
theorem claim_C7_terminating (parent : List (Concept × Concept)) (c : Concept) :
    (∀ fuel, parent.length + 1 ≤ fuel →
      ancestorsAux parent fuel c [] = ancestors parent c) ∧
    (ancestors parent c).length ≤ parent.length ∧
    (ancestors parent c).Nodup := by
  refine ⟨?_, ?_, (ancestorsAux_nodup_and _ _ _).1⟩
  · intro fuel hf
    exact ancestorsAux_stable fuel (parent.length + 1) c []
      (le_trans (le_trans (notSeenCount_le parent []) (Nat.le_succ _)) hf)
      (le_trans (notSeenCount_le parent []) (Nat.le_succ _))
  · exact le_trans (ancestorsAux_length _ _ _) (notSeenCount_le parent [])

/-- Witness for C7 on a cyclic parent map: the walk has stabilised (fuel 50
gives the same finite sequence) and is bounded. -/
theorem claim_C7_witness :
    ancestorsAux [("a", "b"), ("b", "a")] 50 "a" [] = ancestors [("a", "b"), ("b", "a")] "a" ∧
    (ancestors [("a", "b"), ("b", "a")] "a").length ≤ 2 :=
  ⟨(claim_C7_terminating [("a", "b"), ("b", "a")] "a").1 50 (by norm_num),
    (claim_C7_terminating [("a", "b"), ("b", "a")] "a").2.1⟩

/-- C8 is false as stated: on the cyclic parent map `{a → b, b → a}` the walk
from `a` yields `[b, a]`, which contains `a` itself (the visited-parents guard
only tracks yielded parents, not the start concept). -/
theorem claim_C8_counterexample :
    ancestors [("a", "b"), ("b", "a")] "a" = ["b", "a"] ∧
    "a" ∈ ancestors [("a", "b"), ("b", "a")] "a" := by
  constructor <;> decide

/-- C8 (amended): the walk follows the parent chain in near-to-far order (its
first element is the parent of `c`, and each element's parent is the next),
and it never contains `c` itself provided `c` is not reachable from itself
through the parent relation (i.e. `c` does not lie on a cycle). -/
theorem claim_C8_chain (parent : List (Concept × Concept)) (c : Concept) :
    List.Chain (parentStep parent) c (ancestors parent c) ∧
    (¬ Relation.TransGen (parentStep parent) c c → c ∉ ancestors parent c) := by
  refine ⟨ancestorsAux_chain parent _ c [], fun hnc hmem => ?_⟩
  exact hnc (transGen_of_mem_ancestorsAux _ c [] c hmem)

/-- Witness for the amended C8 on the acyclic map `{a → b}`. -/
theorem claim_C8_witness :
    List.Chain (parentStep [("a", "b")]) "a" (ancestors [("a", "b")] "a") ∧
    "a" ∉ ancestors [("a", "b")] "a" :=
  ⟨(claim_C8_chain [("a", "b")] "a").1,
    (claim_C8_chain [("a", "b")] "a").2
      (fun h => absurd (transGen_mem_values h) (by decide))⟩

/-- C9: with an empty taxonomy, empty observed facts and weights, and
`useTrueFacts = true`, the observation map contains every fact whose baseline
value is true at confidence exactly `1.0`, and no fact whose baseline value is
false. -/
theorem claim_C9_baseline (facts : List Fact) (hnd : (facts.map Fact.id).Nodup)
    (f : Fact) (hf : f ∈ facts) :
    (f.value = true → lookup? (inferObservations facts [] [] [] true) f.id = some 1) ∧
    (f.value = false → lookup? (inferObservations facts [] [] [] true) f.id = none) := by
  have hkey : lookup? (inferObservations facts [] [] [] true) f.id
      = if f.id ∈ (trueFactIds facts).dedup
        then some (clamp01 ((lookup? ([] : List (Concept × PyVal)) f.id).getD (.num 1)))
        else none := by
    rw [inferObservations]
    have hobs : observedUnion [] facts true = (trueFactIds facts).dedup := by
      simp [observedUnion]
    rw [hobs, expand_observation, if_pos rfl, lookup?_buildObsConf]
  constructor
  · intro hv
    have hmem : f.id ∈ trueFactIds facts := (mem_trueFactIds_iff hnd hf).mpr hv
    rw [hkey, if_pos (List.mem_dedup.mpr hmem)]
    norm_num [lookup?, clamp01, min_def, max_def]
  · intro hv
    have hmem : f.id ∉ trueFactIds facts := by
      intro hc
      have := (mem_trueFactIds_iff hnd hf).mp hc
      rw [hv] at this
      exact Bool.noConfusion this
    rw [hkey, if_neg (fun hc => hmem (List.mem_dedup.mp hc))]

/-- Witness for C9, the spec's example: `f1` (baseline true) is observed at
confidence `1.0`, `f2` (baseline false) is absent. -/
theorem claim_C9_witness :
    lookup? (inferObservations [⟨"f1", "", true, []⟩, ⟨"f2", "", false, []⟩]
      [] [] [] true) "f1" = some 1 ∧
    lookup? (inferObservations [⟨"f1", "", true, []⟩, ⟨"f2", "", false, []⟩]
      [] [] [] true) "f2" = none := by
  constructor
  · exact (claim_C9_baseline [⟨"f1", "", true, []⟩, ⟨"f2", "", false, []⟩] (by decide)
      ⟨"f1", "", true, []⟩ (by decide)).1 rfl
  · exact (claim_C9_baseline [⟨"f1", "", true, []⟩, ⟨"f2", "", false, []⟩] (by decide)
      ⟨"f2", "", false, []⟩ (by decide)).2 rfl

/-- C10: with a non-empty taxonomy, the expanded map's key set is exactly the
observed concepts together with the ancestors of observed concepts, and an
observed concept that is no observed concept's ancestor keeps its input
confidence unchanged. -/
theorem claim_C10_frame (parent : List (Concept × Concept)) (_hne : parent ≠ [])
    (obs : ConfMap) :
    (∀ j, j ∈ (expand_observation parent obs).map Prod.fst ↔
      (j ∈ obs.map Prod.fst ∨ ∃ fc ∈ obs, j ∈ ancestors parent fc.1)) ∧
    (∀ j, j ∈ obs.map Prod.fst → (∀ fc ∈ obs, j ∉ ancestors parent fc.1) →
      lookup? (expand_observation parent obs) j = lookup? obs j) := by
  constructor
  · intro j
    rw [← not_iff_not, ← lookup?_eq_none_iff, lookup?_expand, foldl_optUpd_eq_contribs,
      foldl_omax_eq_none_iff, lookup?_eq_none_iff]
    constructor
    · rintro ⟨hc, hn⟩
      push_neg
      refine ⟨hn, fun fc hfc => ?_⟩
      by_contra hanc
      have : (fun fc : Concept × ℚ =>
          if j ∈ ancestors parent fc.1 then some fc.2 else none) fc = none :=
        (List.filterMap_eq_nil_iff.mp hc) fc hfc
      simp [hanc] at this
    · intro h
      push_neg at h
      refine ⟨List.filterMap_eq_nil_iff.mpr (fun fc hfc => ?_), h.1⟩
      simp [h.2 fc hfc]
  · intro j _ hno
    rw [lookup?_expand, foldl_optUpd_eq_contribs]
    have hc : contribs parent j obs = [] :=
      List.filterMap_eq_nil_iff.mpr (fun fc hfc => by simp [hno fc hfc])
    rw [hc]
    rfl

/-- Witness for C10 on taxonomy `{cough → respiratory}` with observation
`cough`: `respiratory` enters the domain, and `cough` keeps its confidence. -/
theorem claim_C10_witness :
    "respiratory" ∈ (expand_observation [("cough", "respiratory")]
      [("cough", (1 : ℚ))]).map Prod.fst ∧
    lookup? (expand_observation [("cough", "respiratory")] [("cough", (1 : ℚ))]) "cough"
      = some 1 := by
  obtain ⟨ha, hb⟩ := claim_C10_frame [("cough", "respiratory")] (by decide) [("cough", 1)]
  constructor
  · exact (ha "respiratory").mpr
      (Or.inr ⟨("cough", 1), List.mem_cons_self _ _, by decide⟩)
  · have h := hb "cough" (by decide) (fun fc hfc => by
      rw [List.mem_singleton.mp hfc]
      decide)
    rw [h]
    rfl

theorem round3_eval (q : ℚ) (n : ℤ) (h : q * 1000 = (n : ℚ)) :
    round3 q = (n : ℚ) / 1000 := by
  rw [round3, h, roundHalfEven_intCast]

/-- C3: the ranked conclusions computed from the fired rules of `infer`
contain exactly one entry per distinct fired conclusion, each entry's score is
the maximum score among the fired rules sharing that conclusion, and the
entries are sorted by score descending. -/
theorem claim_C3_ranked (rules : List Rule) (m : ConfMap) :
    ((rankedConclusions (firedList rules m)).map Prod.fst).Nodup ∧
    (∀ k, k ∈ (rankedConclusions (firedList rules m)).map Prod.fst ↔
      k ∈ (firedList rules m).map FiredRule.conclusion) ∧
    (∀ p ∈ rankedConclusions (firedList rules m),
      p.2 ∈ matchScores (firedList rules m) p.1 ∧
      ∀ r ∈ firedList rules m, r.conclusion = p.1 → r.score ≤ p.2) ∧
    (rankedConclusions (firedList rules m)).Pairwise (fun a b => b.2 ≤ a.2) := by
  have hperm := rankedConclusions_perm (firedList rules m)
  have hkeys : ((rankedConclusions (firedList rules m)).map Prod.fst).Perm
      ((aggregateConc (firedList rules m)).map Prod.fst) := by
    have := hperm.map Prod.fst
    simpa [List.map_map, Function.comp] using this
  refine ⟨?_, ?_, ?_, rankedConclusions_sorted _⟩
  · exact hkeys.nodup_iff.mpr (aggregateConc_nodup_keys _)
  · intro k
    rw [hkeys.mem_iff, mem_agg_keys_iff]
  · intro p hp
    have hp2 : p ∈ (aggregateConc (firedList rules m)).map
        fun kv => (kv.1, round3 kv.2) := hperm.mem_iff.mp hp
    obtain ⟨kv, hkv, rfl⟩ := List.mem_map.mp hp2
    obtain ⟨hmem, hub⟩ := lookup?_agg_value
      (fun r hr => (firedList_score hr).1) hkv
    have hfix : round3 kv.2 = kv.2 := by
      obtain ⟨r, hr, _, hs⟩ := mem_matchScores.mp hmem
      rw [← hs]
      exact (firedList_score hr).2
    refine ⟨by simpa [hfix] using hmem, ?_⟩
    intro r hr hc
    have : r.score ∈ matchScores (firedList rules m) kv.1 :=
      mem_matchScores.mpr ⟨r, hr, hc, rfl⟩
    simpa [hfix] using hub r.score this

/-- Witness for C3: two rules conclude `d` with scores `0.4` and `0.8`; the
ranked entry for `d` carries the maximum, `0.8`. -/
theorem claim_C3_witness :
    ((0.8 : ℚ) ∈ matchScores (firedList
        [⟨"r1", ["a"], "d", some 0.4, none⟩, ⟨"r2", ["a"], "d", some 0.8, none⟩]
        [("a", 1)]) "d") ∧
    (∀ r ∈ firedList
        [⟨"r1", ["a"], "d", some 0.4, none⟩, ⟨"r2", ["a"], "d", some 0.8, none⟩]
        [("a", 1)], r.conclusion = "d" → r.score ≤ 0.8) := by
  have e1 : evaluate_rule ⟨"r1", ["a"], "d", some 0.4, none⟩ [("a", 1)] = (true, 0.4) := by
    norm_num +decide [evaluate_rule, condScores, getD, lookup?, clamp01,
      min_def, max_def, Prod.ext_iff]
  have e2 : evaluate_rule ⟨"r2", ["a"], "d", some 0.8, none⟩ [("a", 1)] = (true, 0.8) := by
    norm_num +decide [evaluate_rule, condScores, getD, lookup?, clamp01,
      min_def, max_def, Prod.ext_iff]
  have h4 : round3 (2 / 5) = 2 / 5 := by
    rw [round3_eval (2 / 5) 400 (by norm_num)]
    norm_num
  have h8 : round3 (4 / 5) = 4 / 5 := by
    rw [round3_eval (4 / 5) 800 (by norm_num)]
    norm_num
  have hfired : firedList
      [⟨"r1", ["a"], "d", some 0.4, none⟩, ⟨"r2", ["a"], "d", some 0.8, none⟩]
      [("a", 1)] = [⟨"r1", "d", 0.4, "", ["a"]⟩, ⟨"r2", "d", 0.8, "", ["a"]⟩] := by
    simp only [firedList, List.filterMap_cons, List.filterMap_nil, e1, e2]
    norm_num [h4, h8]
  have hagg : aggregateConc [⟨"r1", "d", 0.4, "", ["a"]⟩, ⟨"r2", "d", 0.8, "", ["a"]⟩]
      = [("d", 0.8)] := by
    norm_num +decide [aggregateConc, List.foldl, setKey, getD, lookup?, min_def, max_def]
  have hrank : rankedConclusions (firedList
      [⟨"r1", ["a"], "d", some 0.4, none⟩, ⟨"r2", ["a"], "d", some 0.8, none⟩]
      [("a", 1)]) = [("d", 0.8)] := by
    rw [hfired, rankedConclusions, hagg]
    norm_num [h8]
  have hp : (("d", 0.8) : Concept × ℚ) ∈ rankedConclusions (firedList
      [⟨"r1", ["a"], "d", some 0.4, none⟩, ⟨"r2", ["a"], "d", some 0.8, none⟩]
      [("a", 1)]) := by
    rw [hrank]
    exact List.mem_singleton.mpr rfl
  exact (claim_C3_ranked
    [⟨"r1", ["a"], "d", some 0.4, none⟩, ⟨"r2", ["a"], "d", some 0.8, none⟩]
    [("a", 1)]).2.2.1 ("d", 0.8) hp

end ExpertSystem
